import Mathlib

/-
Verification of the `fieldname-access` derive-macro generator.

The generator (src/lib.rs) reads one record declaration and produces two
tagged unions (shared and mutable views of the fields) together with two
string-dispatched accessor methods `field` / `field_mut`.  Everything below
is a shallow embedding of that generator: the syntactic input is modelled by
`DeriveInput`, tag canonicalization by `shorten_type`, deduplication by
`unique_by`, and the run-time behaviour of the generated `match` by
`run_match` over the generated arms.  A `none` / `Except.error` result models
a Rust panic.
-/

set_option linter.unusedVariables false

namespace FieldnameAccess

/-- Token trees that can appear inside a `fieldname_enum(...)` attribute,
mirroring the shapes the generator inspects: identifiers, punctuation,
literals, and bracketed groups (a group carries the names of its stream). -/
inductive TokenTree where
  | Ident (s : String)
  | Punct (s : String)
  | Literal (s : String)
  | Group (stream : List String)
deriving DecidableEq

/-- Rendering of a token, as used by the generator's skip-and-pick scan over
the attribute's tokens (`token.to_string() != attr_name`). -/
def TokenTree.toString : TokenTree → String
  | .Ident s => s
  | .Punct s => s
  | .Literal s => s
  | .Group stream => "[" ++ String.intercalate ", " stream ++ "]"

/-- Value of a name-value attribute: a string literal (carrying its unquoted
string value) or anything else. -/
inductive MetaValue where
  | Str (s : String)
  | Other
deriving DecidableEq

/-- Parsed attribute body, mirroring `syn::Meta`.  `pathFirst` is the first
path segment (`path.segments.first()`). -/
inductive Meta where
  | List (pathFirst : Option String) (tokens : List TokenTree)
  | NameValue (pathFirst : Option String) (value : MetaValue)
  | Path
deriving DecidableEq

/-- One attribute attached to the record or to a field. -/
structure Attribute where
  meta : Meta
deriving DecidableEq

/-- One named field of the input record: its name, the token text of its
declared type, and its attributes. -/
structure Field where
  name : String
  ty : String
  attrs : List Attribute
deriving DecidableEq

/-- Shape of a struct's field list, mirroring `syn::Fields`. -/
inductive Fields where
  | Named (named : List Field)
  | Unnamed
  | Unit
deriving DecidableEq

/-- Kind of the input declaration, mirroring `syn::Data`. -/
inductive Data where
  | Struct (fields : Fields)
  | Enum
  | Union
deriving DecidableEq

/-- The macro input: record name, attributes, and declaration body. -/
structure DeriveInput where
  ident : String
  attrs : List Attribute
  data : Data
deriving DecidableEq

/-- Fuel-indexed step function covering both phases of `shorten_type`.
Mode `false` is the function's entry (skip to the first uppercase letter, or
fall back to filtering and title-casing the first character); mode `true` is
the copying loop over the uppercase-led segment, which recurses into the
entry mode on a generic-argument `<`.  Fuel `2 * length + 2` always
suffices; `none` models the source's panic when the fallback slices the
first byte of an empty filtered string. -/
def stepF : Nat → Bool → List Char → Option (List Char)
  | 0, _, _ => none
  | n+1, false, s =>
    let st := s.dropWhile (fun c => !c.isUpper)
    if st.isEmpty then
      match s.filter Char.isAlphanum with
      | [] => none
      | c :: cs => some (c.toUpper :: cs)
    else stepF n true st
  | _+1, true, [] => some []
  | n+1, true, c :: cs =>
    if c = '<' then stepF n false cs
    else if c.isAlphanum then (stepF n true cs).map (fun r => c :: r)
    else stepF n true cs

/-- Canonicalization of a type's token text over character lists
(`shorten_type` in the source). -/
def shorten_type_chars (s : List Char) : Option (List Char) :=
  stepF (2 * s.length + 2) false s

/-- Canonicalization of a type's token text; `none` models the panic of the
fallback branch on an empty filtered string. -/
def shorten_type (type_str : String) : Option String :=
  (shorten_type_chars type_str.data).map List.asString

/-- Variant name for a field type: the canonicalized token text of the type
(`generate_variant_name` stringifies the type and shortens it). -/
def generate_variant_name (ty : String) : Option String := shorten_type ty

/-- Scan the attributes for a `fieldname_enum(...)` list and pick the token
two places after the first token rendering as `attr_name`
(`skip_while(to_string != attr_name).nth(2)`). -/
def get_fieldname_enum_val (attrs : List Attribute) (attr_name : String) :
    Option TokenTree :=
  attrs.findSome? fun attr =>
    match attr.meta with
    | .List pathFirst tokens =>
      match pathFirst with
      | none => none
      | some seg =>
        if seg ≠ "fieldname_enum" then none
        else (tokens.dropWhile (fun t => t.toString ≠ attr_name))[2]?
    | _ => none

/-- Explicit enum-name override: the `name = "..."` literal with its first
and last characters (the quotes) stripped. -/
def retrieve_enum_name (attrs : List Attribute) : Option String :=
  match get_fieldname_enum_val attrs "name" with
  | some (.Literal lit) => some ((lit.data.drop 1).dropLast.asString)
  | _ => none

/-- Capability (derive) set for one of the groups `derive`, `derive_mut`,
`derive_all`: present when the picked token is a bracketed group. -/
def retrieve_derives (attrs : List Attribute) (derive_group : String) :
    Option (List String) :=
  match get_fieldname_enum_val attrs derive_group with
  | some (.Group stream) => some stream
  | _ => none

/-- Field-level explicit tag: the first `fieldname = "..."` name-value
attribute's string value. -/
def retrieve_fieldname (attrs : List Attribute) : Option String :=
  attrs.findSome? fun attr =>
    match attr.meta with
    | .NameValue pathFirst value =>
      match pathFirst with
      | none => none
      | some seg =>
        if seg ≠ "fieldname" then none
        else
          match value with
          | .Str s => some s
          | .Other => none
    | _ => none

/-- Resolved variant identifier for one field: the explicit
`#[fieldname = "..."]` override when present, otherwise the canonicalized
type text. -/
def variant_ident (field : Field) : Option String :=
  match retrieve_fieldname field.attrs with
  | some name => some name
  | none => generate_variant_name field.ty

/-- The `(field name, field type, variant identifier)` triples built from the
record's fields in declaration order; `none` models a panic while
canonicalizing some field's type. -/
def field_map : List Field → Option (List (String × String × String))
  | [] => some []
  | field :: fields =>
    match variant_ident field, field_map fields with
    | some v, some rest => some ((field.name, field.ty, v) :: rest)
    | _, _ => none

/-- Itertools-style `unique_by` with an explicit set of already-seen keys:
keep an element exactly when its key has not been seen before. -/
def unique_by_from (key : α → String) (seen : List String) : List α → List α
  | [] => []
  | x :: xs =>
    if key x ∈ seen then unique_by_from key seen xs
    else x :: unique_by_from key (key x :: seen) xs

/-- Itertools `unique_by`: first occurrence of each key is kept, in order. -/
def unique_by (key : α → String) (l : List α) : List α :=
  unique_by_from key [] l

/-- One case of a generated union: variant identifier, payload type, and
whether the payload is a mutable borrow. -/
structure Variant where
  ident : String
  ty : String
  is_mut : Bool
deriving DecidableEq

/-- Cases of a generated union: the field map deduplicated by variant
identifier, each kept entry contributing its identifier and its type as the
payload type. -/
def generate_enum_variants (fm : List (String × String × String))
    (is_mut : Bool) : List Variant :=
  (unique_by (fun f => f.2.2) fm).map fun f => ⟨f.2.2, f.2.1, is_mut⟩

/-- One generated match arm per field, in order: the matched field-name
literal, the variant identifier applied, and the field whose storage the
built reference borrows (`&self.f` or `&mut self.f`). -/
def generate_match_arms (fm : List (String × String × String))
    (is_mut : Bool) : List (String × String × String) :=
  fm.map fun f => (f.1, f.2.2, f.1)

/-- Everything the macro emits, one record per generation run. -/
structure Output where
  value_enum_ident : String
  value_enum_ident_mut : String
  derive : Option (List String)
  derive_mut : Option (List String)
  value_variants : List Variant
  value_variants_mut : List Variant
  match_arms : List (String × String × String)
  match_arms_mut : List (String × String × String)
deriving DecidableEq

/-- The generator itself (`fieldname_accessor`).  Errors model the source's
panics: unions, enums and nameless fields are rejected, and a failed variant
identifier (canonicalization panic) aborts generation with no output. -/
def fieldname_accessor (inp : DeriveInput) : Except String Output :=
  match inp.data with
  | Data.Union => Except.error "FieldnameAccess cannot be used with unions"
  | Data.Enum => Except.error "FieldnameAccess cannot be used with enums"
  | Data.Struct Fields.Unnamed => Except.error "Nameless fields are not supported"
  | Data.Struct Fields.Unit => Except.error "Nameless fields are not supported"
  | Data.Struct (Fields.Named fields) =>
    match field_map fields with
    | none => Except.error "panicked while generating a variant name"
    | some fm =>
      let dd : Option (List String) × Option (List String) :=
        match retrieve_derives inp.attrs "derive_all" with
        | some derives => (some derives, some derives)
        | none =>
          (retrieve_derives inp.attrs "derive",
           retrieve_derives inp.attrs "derive_mut")
      let value_enum_ident := (retrieve_enum_name inp.attrs).getD (inp.ident ++ "Field")
      Except.ok
        { value_enum_ident := value_enum_ident
          value_enum_ident_mut := value_enum_ident ++ "Mut"
          derive := dd.1
          derive_mut := dd.2
          value_variants := generate_enum_variants fm false
          value_variants_mut := generate_enum_variants fm true
          match_arms := generate_match_arms fm false
          match_arms_mut := generate_match_arms fm true }

/-- Semantics of the generated dispatch: the first match arm whose literal
equals the looked-up name wins and yields `(variant identifier, borrowed
field)`; the trailing wildcard arm yields `none`. -/
def run_match (arms : List (String × String × String)) (fieldname : String) :
    Option (String × String) :=
  (arms.find? (fun arm => arm.1 == fieldname)).map (fun arm => arm.2)

/-- The generated `field` method: dispatch over the shared-borrow arms. -/
def Output.field (out : Output) (fieldname : String) : Option (String × String) :=
  run_match out.match_arms fieldname

/-- The generated `field_mut` method: dispatch over the mutable-borrow arms. -/
def Output.field_mut (out : Output) (fieldname : String) : Option (String × String) :=
  run_match out.match_arms_mut fieldname

/-- Reading through a returned view: dereference the borrowed field inside a
record valuation that maps field names to their stored values. -/
def read_view (v : String → α) (view : String × String) : α := v view.2

/-- Writing through a mutable view: the borrowed field's storage is replaced,
every other field is untouched. -/
def write_view (v : String → α) (view : String × String) (x : α) : String → α :=
  fun m => if m = view.2 then x else v m

/-- Fields of the test-suite record `TestStruct { name: String, age: u8 }`
(restricted to two fields), used as a concrete instantiation. -/
def demoFields : List Field := [⟨"name", "String", []⟩, ⟨"age", "u8", []⟩]

/-- A concrete derive input with no attributes. -/
def demoInp : DeriveInput := ⟨"TestStruct", [], Data.Struct (Fields.Named demoFields)⟩

/-- The output the generator produces for `demoInp`. -/
def demoOut : Output :=
  { value_enum_ident := "TestStructField"
    value_enum_ident_mut := "TestStructFieldMut"
    derive := none
    derive_mut := none
    value_variants := [⟨"String", "String", false⟩, ⟨"U8", "u8", false⟩]
    value_variants_mut := [⟨"String", "String", true⟩, ⟨"U8", "u8", true⟩]
    match_arms := [("name", "String", "name"), ("age", "U8", "age")]
    match_arms_mut := [("name", "String", "name"), ("age", "U8", "age")] }

/-- A concrete record valuation: field `age` currently stores `7`. -/
def demoVal : String → Nat := fun n => if n = "age" then 7 else 0

/-- Record-level attributes carrying both `derive_all = [Debug]` and
`derive = [Clone]`. -/
def demoAttrs : List Attribute :=
  [⟨Meta.List (some "fieldname_enum")
      [TokenTree.Ident "derive_all", TokenTree.Punct "=", TokenTree.Group ["Debug"]]⟩,
   ⟨Meta.List (some "fieldname_enum")
      [TokenTree.Ident "derive", TokenTree.Punct "=", TokenTree.Group ["Clone"]]⟩]

/-- A concrete derive input with both `derive_all` and `derive` attributes. -/
def demoInpAll : DeriveInput := ⟨"TestStruct", demoAttrs, Data.Struct (Fields.Named demoFields)⟩

/-- The output the generator produces for `demoInpAll`. -/
def demoOutAll : Output :=
  { value_enum_ident := "TestStructField"
    value_enum_ident_mut := "TestStructFieldMut"
    derive := some ["Debug"]
    derive_mut := some ["Debug"]
    value_variants := [⟨"String", "String", false⟩, ⟨"U8", "u8", false⟩]
    value_variants_mut := [⟨"String", "String", true⟩, ⟨"U8", "u8", true⟩]
    match_arms := [("name", "String", "name"), ("age", "U8", "age")]
    match_arms_mut := [("name", "String", "name"), ("age", "U8", "age")] }

/-- An in-scope record shape (single struct, named fields) whose only field
has the unit type `()`; its token text `( )` defeats canonicalization. -/
def badInp : DeriveInput := ⟨"Holder", [], Data.Struct (Fields.Named [⟨"x", "( )", []⟩])⟩

/-- A concrete field map with a canonical-tag collision (`dog_age`, `cat_age`)
next to an explicitly overridden tag (`age` tagged `AmazingAge`), mirroring
the test suite's `NamedFieldname` record. -/
def fmDemo : List (String × String × String) :=
  [("dog_age", "i64", "I64"), ("cat_age", "i64", "I64"), ("age", "i64", "AmazingAge")]

/-- A concrete field carrying an explicit `#[fieldname = "AmazingAge"]` tag. -/
def fDemo : Field :=
  ⟨"age", "i64", [⟨Meta.NameValue (some "fieldname") (MetaValue.Str "AmazingAge")⟩]⟩

/-- Fuel sufficient for `stepF`: the walking mode consumes at most one unit
per remaining character plus one, the entry mode one more for its initial
skip. -/
def fuel_bound : Bool → List Char → Nat
  | true, s => 2 * s.length + 1
  | false, s => 2 * s.length + 2

/-- Whether the text contains an uppercase or an ASCII-alphanumeric
character, i.e. a character that keeps a canonicalization segment alive. -/
def hasUA (l : List Char) : Bool := l.any fun c => c.isUpper || c.isAlphanum

/-- Whether every suffix following a `<` contains an uppercase or an
ASCII-alphanumeric character. -/
def goodAngles : List Char → Bool
  | [] => true
  | c :: cs => (if c = '<' then hasUA cs else true) && goodAngles cs

/-! ### Fuel arithmetic for `stepF` -/

theorem stepF_succ_false (n : Nat) (s : List Char) :
    stepF (n+1) false s =
      (if (s.dropWhile fun c => !c.isUpper).isEmpty then
        match s.filter Char.isAlphanum with
        | [] => (none : Option (List Char))
        | c :: cs => some (c.toUpper :: cs)
      else stepF n true (s.dropWhile fun c => !c.isUpper)) := rfl

theorem stepF_stable :
    ∀ n₁ n₂ m s, fuel_bound m s ≤ n₁ → fuel_bound m s ≤ n₂ →
      stepF n₁ m s = stepF n₂ m s := by
  intro n₁
  induction n₁ with
  | zero =>
    intro n₂ m s h₁ h₂
    cases m <;> simp [fuel_bound] at h₁
  | succ a ih =>
    intro n₂ m s h₁ h₂
    cases n₂ with
    | zero => cases m <;> simp [fuel_bound] at h₂
    | succ b =>
      cases m with
      | false =>
        rw [stepF_succ_false, stepF_succ_false]
        cases hst : (s.dropWhile fun c => !c.isUpper).isEmpty with
        | true => simp [hst]
        | false =>
          simp only [hst, Bool.false_eq_true, if_false]
          have hlen : (s.dropWhile fun c => !c.isUpper).length ≤ s.length :=
            List.Sublist.length_le (List.dropWhile_sublist _)
          apply ih
          · simp only [fuel_bound] at h₁ ⊢; omega
          · simp only [fuel_bound] at h₂ ⊢; omega
      | true =>
        cases s with
        | nil => rfl
        | cons c cs =>
          show stepF (a+1) true (c :: cs) = stepF (b+1) true (c :: cs)
          simp only [stepF]
          by_cases hc : c = '<'
          · simp only [hc, if_pos rfl]
            apply ih <;> (simp only [fuel_bound, List.length_cons] at h₁ h₂ ⊢; omega)
          · simp only [hc, if_false]
            have hrec : stepF a true cs = stepF b true cs := by
              apply ih <;> (simp only [fuel_bound, List.length_cons] at h₁ h₂ ⊢; omega)
            by_cases ha : c.isAlphanum <;> simp [ha, hrec]

theorem shorten_type_chars_eq_stepF (s : List Char) (n : Nat)
    (h : fuel_bound false s ≤ n) : shorten_type_chars s = stepF n false s := by
  apply stepF_stable
  · simp [fuel_bound]
  · exact h

/-! ### The copying loop of the uppercase-led branch -/

theorem stepF_walk_no_angle :
    ∀ (l : List Char) (n : Nat), '<' ∉ l → l.length + 1 ≤ n →
      stepF n true l = some (l.filter Char.isAlphanum) := by
  intro l
  induction l with
  | nil =>
    intro n h hn
    cases n with
    | zero => omega
    | succ k => rfl
  | cons c cs ih =>
    intro n h hn
    rw [List.mem_cons] at h
    push_neg at h
    obtain ⟨h1, h2⟩ := h
    have hc : ¬ c = '<' := fun hcontra => h1 hcontra.symm
    cases n with
    | zero => simp at hn
    | succ k =>
      simp only [stepF, hc, if_false]
      rw [ih k h2 (by simp at hn; omega)]
      by_cases ha : c.isAlphanum <;> simp [List.filter_cons, ha]

theorem stepF_walk_angle :
    ∀ (l rest : List Char) (n : Nat), '<' ∉ l →
      fuel_bound true (l ++ '<' :: rest) ≤ n →
      stepF n true (l ++ '<' :: rest) =
        (shorten_type_chars rest).map (fun r => l.filter Char.isAlphanum ++ r) := by
  intro l
  induction l with
  | nil =>
    intro rest n h hn
    cases n with
    | zero => simp [fuel_bound] at hn
    | succ k =>
      simp only [List.nil_append, stepF, if_pos rfl]
      rw [← shorten_type_chars_eq_stepF rest k
        (by simp [fuel_bound] at hn ⊢; omega)]
      cases shorten_type_chars rest <;> simp
  | cons c cs ih =>
    intro rest n h hn
    rw [List.mem_cons] at h
    push_neg at h
    obtain ⟨h1, h2⟩ := h
    have hc : ¬ c = '<' := fun hcontra => h1 hcontra.symm
    cases n with
    | zero => simp [fuel_bound] at hn
    | succ k =>
      simp only [List.cons_append, stepF, hc, if_false, List.append_eq]
      rw [ih rest k h2
        (by simp only [fuel_bound, List.length_cons, List.length_append] at hn ⊢; omega)]
      by_cases ha : c.isAlphanum
      · simp only [ha, if_true, Option.map_map]
        cases shorten_type_chars rest <;> simp [List.filter_cons, ha]
      · simp only [ha, Bool.false_eq_true, if_false]
        cases shorten_type_chars rest <;> simp [List.filter_cons, ha]

theorem fa_dropWhile_append (p : Char → Bool) :
    ∀ (l₁ l₂ : List Char), l₁.dropWhile p ≠ [] →
      (l₁ ++ l₂).dropWhile p = l₁.dropWhile p ++ l₂ := by
  intro l₁
  induction l₁ with
  | nil => intro l₂ h; simp [List.dropWhile] at h
  | cons c cs ih =>
    intro l₂ h
    by_cases hc : p c
    · rw [List.dropWhile_cons_of_pos hc] at h
      rw [List.cons_append, List.dropWhile_cons_of_pos hc,
        List.dropWhile_cons_of_pos hc, ih l₂ h]
    · rw [List.dropWhile_cons_of_neg hc] at h
      rw [List.cons_append, List.dropWhile_cons_of_neg hc,
        List.dropWhile_cons_of_neg hc, List.cons_append]

theorem shorten_chars_angle_decomp (pre rest : List Char)
    (h1 : pre.any Char.isUpper = true) (h2 : '<' ∉ pre) :
    shorten_type_chars (pre ++ '<' :: rest) =
      (shorten_type_chars rest).map
        (fun r => (pre.dropWhile fun c => !c.isUpper).filter Char.isAlphanum ++ r) := by
  have hne : pre.dropWhile (fun c => !c.isUpper) ≠ [] := by
    intro hcontra
    rw [List.dropWhile_eq_nil_iff] at hcontra
    rw [List.any_eq_true] at h1
    obtain ⟨c, hcmem, hcup⟩ := h1
    have := hcontra c hcmem
    simp [hcup] at this
  have hsplit := fa_dropWhile_append (fun c => !c.isUpper) pre ('<' :: rest) hne
  have hangle : '<' ∉ pre.dropWhile (fun c => !c.isUpper) := by
    intro hcontra
    exact h2 (List.Sublist.mem hcontra (List.dropWhile_sublist _))
  have hlen : (pre.dropWhile fun c => !c.isUpper).length ≤ pre.length :=
    List.Sublist.length_le (List.dropWhile_sublist _)
  show stepF (2 * (pre ++ '<' :: rest).length + 1 + 1) false (pre ++ '<' :: rest) = _
  rw [stepF_succ_false, hsplit]
  have hemp : ((pre.dropWhile fun c => !c.isUpper) ++ '<' :: rest).isEmpty = false := by
    cases hd : pre.dropWhile fun c => !c.isUpper with
    | nil => exact absurd hd hne
    | cons a as => rfl
  rw [hemp]
  simp only [Bool.false_eq_true, if_false]
  rw [stepF_walk_angle _ rest _ hangle
    (by simp only [fuel_bound, List.length_append, List.length_cons]; omega)]

theorem shorten_chars_no_angle (pre : List Char)
    (h1 : pre.any Char.isUpper = true) (h2 : '<' ∉ pre) :
    shorten_type_chars pre =
      some ((pre.dropWhile fun c => !c.isUpper).filter Char.isAlphanum) := by
  have hne : pre.dropWhile (fun c => !c.isUpper) ≠ [] := by
    intro hcontra
    rw [List.dropWhile_eq_nil_iff] at hcontra
    rw [List.any_eq_true] at h1
    obtain ⟨c, hcmem, hcup⟩ := h1
    have := hcontra c hcmem
    simp [hcup] at this
  have hangle : '<' ∉ pre.dropWhile (fun c => !c.isUpper) := by
    intro hcontra
    exact h2 (List.Sublist.mem hcontra (List.dropWhile_sublist _))
  have hlen : (pre.dropWhile fun c => !c.isUpper).length ≤ pre.length :=
    List.Sublist.length_le (List.dropWhile_sublist _)
  have hfilter : (pre.dropWhile fun c => !c.isUpper).filter Char.isAlphanum =
      ((pre.dropWhile fun c => !c.isUpper)).filter Char.isAlphanum := rfl
  show stepF (2 * pre.length + 1 + 1) false pre = _
  rw [stepF_succ_false]
  have hemp : (pre.dropWhile fun c => !c.isUpper).isEmpty = false := by
    cases hd : pre.dropWhile fun c => !c.isUpper with
    | nil => exact absurd hd hne
    | cons a as => rfl
  rw [hemp]
  simp only [Bool.false_eq_true, if_false]
  exact stepF_walk_no_angle _ _ hangle (by omega)

/-! ### Totality of canonicalization on well-delimited signatures -/

theorem goodAngles_cons_elim {c : Char} {cs : List Char}
    (h : goodAngles (c :: cs) = true) :
    goodAngles cs = true ∧ (c = '<' → hasUA cs = true) := by
  simp only [goodAngles, Bool.and_eq_true] at h
  refine ⟨h.2, fun hc => ?_⟩
  have := h.1
  rw [if_pos hc] at this
  exact this

theorem goodAngles_dropWhile (p : Char → Bool) :
    ∀ s, goodAngles s = true → goodAngles (s.dropWhile p) = true := by
  intro s
  induction s with
  | nil => intro h; exact h
  | cons c cs ih =>
    intro h
    by_cases hc : p c
    · rw [List.dropWhile_cons_of_pos hc]
      exact ih (goodAngles_cons_elim h).1
    · rw [List.dropWhile_cons_of_neg hc]
      exact h

theorem stepF_isSome :
    ∀ n : Nat,
      (∀ s, fuel_bound false s ≤ n → hasUA s = true → goodAngles s = true →
        (stepF n false s).isSome = true) ∧
      (∀ s, fuel_bound true s ≤ n → goodAngles s = true →
        (stepF n true s).isSome = true) := by
  intro n
  induction n with
  | zero =>
    constructor
    · intro s h; simp [fuel_bound] at h
    · intro s h; simp [fuel_bound] at h
  | succ a ih =>
    constructor
    · intro s h hU hG
      rw [stepF_succ_false]
      cases hst : (s.dropWhile fun c => !c.isUpper).isEmpty with
      | true =>
        rw [if_pos rfl]
        have hnil : s.dropWhile (fun c => !c.isUpper) = [] := by
          cases hd : s.dropWhile fun c => !c.isUpper with
          | nil => rfl
          | cons x xs => rw [hd] at hst; simp at hst
        rw [List.dropWhile_eq_nil_iff] at hnil
        rw [hasUA, List.any_eq_true] at hU
        obtain ⟨c, hcmem, hcprop⟩ := hU
        have hcup := hnil c hcmem
        have hca : c.isAlphanum = true := by
          rcases Bool.or_eq_true_iff.mp hcprop with h' | h'
          · rw [h'] at hcup; simp at hcup
          · exact h'
        cases hf : s.filter Char.isAlphanum with
        | nil =>
          exfalso
          have := List.filter_eq_nil_iff.mp hf c hcmem
          exact this hca
        | cons x xs => simp
      | false =>
        simp only [Bool.false_eq_true, if_false]
        apply ih.2
        · have hlen : (s.dropWhile fun c => !c.isUpper).length ≤ s.length :=
            List.Sublist.length_le (List.dropWhile_sublist _)
          simp only [fuel_bound] at h ⊢
          omega
        · exact goodAngles_dropWhile _ s hG
    · intro s h hG
      cases s with
      | nil => rfl
      | cons c cs =>
        simp only [stepF]
        obtain ⟨hGcs, hUA⟩ := goodAngles_cons_elim hG
        by_cases hc : c = '<'
        · rw [if_pos hc]
          apply ih.1
          · simp only [fuel_bound, List.length_cons] at h ⊢; omega
          · exact hUA hc
          · exact hGcs
        · rw [if_neg hc]
          have hrec : (stepF a true cs).isSome = true := by
            apply ih.2
            · simp only [fuel_bound, List.length_cons] at h ⊢; omega
            · exact hGcs
          by_cases ha : c.isAlphanum
          · rw [if_pos ha]
            cases hs : stepF a true cs with
            | none => rw [hs] at hrec; simp at hrec
            | some r => simp
          · rw [if_neg ha]
            exact hrec

theorem shorten_chars_isSome (s : List Char) (h1 : hasUA s = true)
    (h2 : goodAngles s = true) : (shorten_type_chars s).isSome = true :=
  (stepF_isSome (2 * s.length + 2)).1 s (by simp [fuel_bound]) h1 h2

/-! ### Properties of the unique-by-key deduplication -/

theorem unique_by_from_sublist (key : α → String) :
    ∀ (l : List α) (seen : List String),
      List.Sublist (unique_by_from key seen l) l := by
  intro l
  induction l with
  | nil => intro seen; simp [unique_by_from]
  | cons x xs ih =>
    intro seen
    simp only [unique_by_from]
    by_cases h : key x ∈ seen
    · rw [if_pos h]; exact List.Sublist.cons x (ih seen)
    · rw [if_neg h]; exact List.Sublist.cons₂ x (ih _)

theorem unique_by_from_keys_nodup (key : α → String) :
    ∀ (l : List α) (seen : List String),
      ((unique_by_from key seen l).map key).Nodup ∧
      ∀ t ∈ (unique_by_from key seen l).map key, t ∉ seen := by
  intro l
  induction l with
  | nil => intro seen; simp [unique_by_from]
  | cons x xs ih =>
    intro seen
    simp only [unique_by_from]
    by_cases h : key x ∈ seen
    · rw [if_pos h]; exact ih seen
    · rw [if_neg h]
      obtain ⟨ihn, ihs⟩ := ih (key x :: seen)
      constructor
      · simp only [List.map_cons, List.nodup_cons]
        refine ⟨fun hmem => ?_, ihn⟩
        exact (ihs _ hmem) (List.mem_cons_self _ _)
      · intro t ht
        simp only [List.map_cons, List.mem_cons] at ht
        rcases ht with rfl | hmem
        · exact h
        · intro hts
          exact (ihs t hmem) (List.mem_cons_of_mem _ hts)

theorem unique_by_from_find? (key : α → String) (t : String) :
    ∀ (l : List α) (seen : List String), t ∉ seen →
      (unique_by_from key seen l).find? (fun y => key y == t) =
        l.find? (fun y => key y == t) := by
  intro l
  induction l with
  | nil => intro seen ht; simp [unique_by_from]
  | cons x xs ih =>
    intro seen ht
    simp only [unique_by_from]
    by_cases h : key x ∈ seen
    · rw [if_pos h, ih seen ht]
      have hxf : (key x == t) = false := by
        cases hb : key x == t with
        | false => rfl
        | true =>
          rw [beq_iff_eq] at hb
          exact absurd (hb ▸ h) ht
      simp only [List.find?_cons, hxf]
    · rw [if_neg h]
      cases hxt : key x == t with
      | true => simp only [List.find?_cons, hxt]
      | false =>
        simp only [List.find?_cons, hxt]
        apply ih
        intro hcontra
        rcases List.mem_cons.mp hcontra with hh | hh
        · rw [hh] at hxt
          simp at hxt
        · exact ht hh

theorem unique_by_from_keys_mem (key : α → String) :
    ∀ (l : List α) (seen : List String) (x : α), x ∈ l → key x ∉ seen →
      key x ∈ (unique_by_from key seen l).map key := by
  intro l
  induction l with
  | nil => intro seen x hx; simp at hx
  | cons y ys ih =>
    intro seen x hx hnotseen
    simp only [unique_by_from]
    by_cases h : key y ∈ seen
    · rw [if_pos h]
      rcases List.mem_cons.mp hx with rfl | hmem
      · exact absurd h hnotseen
      · exact ih seen x hmem hnotseen
    · rw [if_neg h]
      simp only [List.map_cons]
      rcases List.mem_cons.mp hx with rfl | hmem
      · exact List.mem_cons_self _ _
      · by_cases hk : key x = key y
        · rw [hk]; exact List.mem_cons_self _ _
        · refine List.mem_cons_of_mem _ (ih _ x hmem ?_)
          intro hcontra
          rcases List.mem_cons.mp hcontra with hh | hh
          · exact hk hh
          · exact hnotseen hh

/-! ### Properties of field-map construction and the generated dispatch -/

theorem fa_find?_map (g : α → β) (p : β → Bool) :
    ∀ l : List α, (l.map g).find? p = (l.find? fun a => p (g a)).map g := by
  intro l
  induction l with
  | nil => rfl
  | cons x xs ih =>
    simp only [List.map_cons, List.find?_cons]
    cases hp : p (g x) with
    | true => rfl
    | false => exact ih

theorem field_map_names :
    ∀ (fs : List Field) (fm : List (String × String × String)),
      field_map fs = some fm → fm.map (fun x => x.1) = fs.map Field.name := by
  intro fs
  induction fs with
  | nil =>
    intro fm h
    simp only [field_map, Option.some.injEq] at h
    subst h
    rfl
  | cons f fs ih =>
    intro fm h
    simp only [field_map] at h
    cases hv : variant_ident f <;> rw [hv] at h
    · simp at h
    · cases hrest : field_map fs <;> rw [hrest] at h
      · simp at h
      · simp only [Option.some.injEq] at h
        subst h
        simp only [List.map_cons]
        rw [ih _ hrest]

theorem field_map_find :
    ∀ (fs : List Field) (fm : List (String × String × String)) (f : Field) (t : String),
      field_map fs = some fm → (fs.map Field.name).Nodup → f ∈ fs →
      variant_ident f = some t →
      fm.find? (fun x => x.1 == f.name) = some (f.name, f.ty, t) := by
  intro fs
  induction fs with
  | nil => intro fm f t hfm hnd hf; simp at hf
  | cons g gs ih =>
    intro fm f t hfm hnd hf ht
    simp only [field_map] at hfm
    cases hv : variant_ident g <;> rw [hv] at hfm
    · simp at hfm
    · cases hrest : field_map gs <;> rw [hrest] at hfm
      · simp at hfm
      · simp only [Option.some.injEq] at hfm
        subst hfm
        rcases List.mem_cons.mp hf with rfl | hmem
        · rw [ht] at hv
          injection hv with hv
          subst hv
          simp [List.find?_cons]
        · have hne : g.name ≠ f.name := by
            intro hcontra
            simp only [List.map_cons, List.nodup_cons] at hnd
            exact hnd.1 (hcontra ▸ List.mem_map_of_mem Field.name hmem)
          have hb : ((g.name : String) == f.name) = false := by
            cases hbb : (g.name : String) == f.name with
            | false => rfl
            | true => exact absurd (beq_iff_eq.mp hbb) hne
          simp only [List.find?_cons, hb]
          exact ih _ f t hrest (by
            simp only [List.map_cons, List.nodup_cons] at hnd
            exact hnd.2) hmem ht

theorem run_match_eq :
    ∀ (fm : List (String × String × String)) (b : Bool) (nm ty t : String),
      fm.find? (fun x => x.1 == nm) = some (nm, ty, t) →
      run_match (generate_match_arms fm b) nm = some (t, nm) := by
  intro fm
  induction fm with
  | nil => intro b nm ty t h; simp at h
  | cons x xs ih =>
    intro b nm ty t h
    cases hx : x.1 == nm with
    | true =>
      simp only [List.find?_cons, hx, Option.some.injEq] at h
      subst h
      simp [run_match, generate_match_arms, List.find?_cons]
    | false =>
      simp only [List.find?_cons, hx] at h
      have hrec := ih b nm ty t h
      simp only [run_match, generate_match_arms, List.map_cons] at hrec ⊢
      simp only [List.find?_cons, hx]
      exact hrec

theorem run_match_none :
    ∀ (fm : List (String × String × String)) (b : Bool) (nm : String),
      (∀ x ∈ fm, x.1 ≠ nm) → run_match (generate_match_arms fm b) nm = none := by
  intro fm b nm h
  simp only [run_match, generate_match_arms]
  rw [List.find?_eq_none.mpr]
  · rfl
  · intro x hx
    simp only [List.mem_map] at hx
    obtain ⟨f, hf, rfl⟩ := hx
    simp only [beq_iff_eq]
    exact h f hf

theorem fieldname_accessor_ok_elim (inp : DeriveInput) (out : Output)
    (hgen : fieldname_accessor inp = Except.ok out) :
    ∃ fs fm, inp.data = Data.Struct (Fields.Named fs) ∧ field_map fs = some fm ∧
      out.match_arms = generate_match_arms fm false ∧
      out.match_arms_mut = generate_match_arms fm true ∧
      out.value_variants = generate_enum_variants fm false ∧
      out.value_variants_mut = generate_enum_variants fm true ∧
      out.derive = (match retrieve_derives inp.attrs "derive_all" with
        | some d => some d
        | none => retrieve_derives inp.attrs "derive") ∧
      out.derive_mut = (match retrieve_derives inp.attrs "derive_all" with
        | some d => some d
        | none => retrieve_derives inp.attrs "derive_mut") := by
  obtain ⟨ident, attrs, data⟩ := inp
  cases data with
  | Enum => simp [fieldname_accessor] at hgen
  | Union => simp [fieldname_accessor] at hgen
  | Struct fields =>
    cases fields with
    | Unnamed => simp [fieldname_accessor] at hgen
    | Unit => simp [fieldname_accessor] at hgen
    | Named fs =>
      simp only [fieldname_accessor] at hgen
      cases hfm : field_map fs <;> rw [hfm] at hgen
      · simp at hgen
      · simp only [Except.ok.injEq] at hgen
        subst hgen
        refine ⟨fs, _, rfl, hfm, rfl, rfl, rfl, rfl, ?_, ?_⟩ <;>
          cases hda : retrieve_derives attrs "derive_all" <;> simp [hda]

/-! ### Claim theorems -/

/-- C1: For every record with named fields that the macro accepts, and every
declared field, the generated shared accessor `field` applied to that field's
name returns `some` of a union value tagged with the field's resolved variant
identifier and borrowing that field's own storage, so the value read through
the view equals the field's currently stored value. -/
theorem field_returns_tagged_current_value
    (inp : DeriveInput) (out : Output) (fs : List Field) (f : Field) (t : String)
    (hdata : inp.data = Data.Struct (Fields.Named fs))
    (hgen : fieldname_accessor inp = Except.ok out)
    (hnodup : (fs.map Field.name).Nodup)
    (hf : f ∈ fs)
    (ht : variant_ident f = some t) :
    out.field f.name = some (t, f.name) ∧
    ∀ (α : Type) (v : String → α),
      (out.field f.name).map (read_view v) = some (v f.name) := by
  obtain ⟨fs', fm, hdata', hfm, harms, _⟩ := fieldname_accessor_ok_elim inp out hgen
  rw [hdata] at hdata'
  injection hdata' with hdata'
  injection hdata' with hdata'
  subst hdata'
  have hfind := field_map_find fs fm f t hfm hnodup hf ht
  have hrun := run_match_eq fm false f.name f.ty t hfind
  constructor
  · show run_match out.match_arms f.name = some (t, f.name)
    rw [harms]
    exact hrun
  · intro α v
    show (run_match out.match_arms f.name).map (read_view v) = some (v f.name)
    rw [harms, hrun]
    rfl

/-- Witness for C1 at the concrete record `TestStruct` with `age` storing 7. -/
theorem field_returns_tagged_current_value_witness :
    demoOut.field "age" = some ("U8", "age") ∧
    (demoOut.field "age").map (read_view demoVal) = some (demoVal "age") := by
  have h := field_returns_tagged_current_value demoInp demoOut demoFields
    ⟨"age", "u8", []⟩ "U8" rfl rfl (by decide) (by decide) (by decide)
  exact ⟨h.1, h.2 Nat demoVal⟩

/-- C2: For every accepted record and every string that is not exactly
(case-sensitively) one of its declared field names, both generated accessors
return `none`; an unknown name is an ordinary absent result of the total
dispatch function, with no partial or case-insensitive matching. -/
theorem unknown_name_yields_none
    (inp : DeriveInput) (out : Output) (fs : List Field) (x : String)
    (hdata : inp.data = Data.Struct (Fields.Named fs))
    (hgen : fieldname_accessor inp = Except.ok out)
    (hx : x ∉ fs.map Field.name) :
    out.field x = none ∧ out.field_mut x = none := by
  obtain ⟨fs', fm, hdata', hfm, harms, harmsmut, _⟩ :=
    fieldname_accessor_ok_elim inp out hgen
  rw [hdata] at hdata'
  injection hdata' with hdata'
  injection hdata' with hdata'
  subst hdata'
  have hnames := field_map_names fs fm hfm
  have hni : ∀ y ∈ fm, y.1 ≠ x := by
    intro y hy hyx
    apply hx
    rw [← hnames]
    exact hyx ▸ List.mem_map_of_mem _ hy
  constructor
  · show run_match out.match_arms x = none
    rw [harms]
    exact run_match_none fm false x hni
  · show run_match out.match_arms_mut x = none
    rw [harmsmut]
    exact run_match_none fm true x hni

/-- Witness for C2: lookups of a name that is no field of `TestStruct`. -/
theorem unknown_name_yields_none_witness :
    demoOut.field "not_important" = none ∧
    demoOut.field_mut "not_important" = none :=
  unknown_name_yields_none demoInp demoOut demoFields "not_important" rfl rfl
    (by decide)

/-- C3: Tag canonicalization is a pure function of the signature text
(modelled as a total function of the text, hence deterministic) and is
compositional over nested generics: the four claimed equations hold, both on
the condensed spellings and on the space-separated token-stream spellings the
generator actually receives. -/
theorem canonicalization_compositional_examples :
    shorten_type "Option<Option<i64>>" = some "OptionOptionI64" ∧
    shorten_type "std::option::Option<String>" = some "OptionString" ∧
    shorten_type "Option<String>" = some "OptionString" ∧
    shorten_type "u8" = some "U8" ∧
    shorten_type "T" = some "T" ∧
    shorten_type "Option < Option < i64 > >" = some "OptionOptionI64" ∧
    shorten_type "std :: option :: Option < String >" = some "OptionString" := by
  decide

/-- C4: Deduplication of union cases is keyed on the resolved tag, for either
borrow mode: the generated cases have pairwise-distinct tags, they form an
order-preserving subsequence of the per-field cases (first occurrence wins),
the case found for a field's tag is built from the first field carrying that
tag (so the payload type is the first such field's type), each field's tag
has exactly one case, and every field keeps a match arm dispatching by name
to its (possibly shared) case. -/
theorem dedup_unique_by_resolved_tag
    (fm : List (String × String × String)) (b : Bool) :
    ((generate_enum_variants fm b).map Variant.ident).Nodup ∧
    List.Sublist (generate_enum_variants fm b)
      (fm.map fun f => ⟨f.2.2, f.2.1, b⟩) ∧
    (∀ g ∈ fm,
      (generate_enum_variants fm b).find? (fun c => c.ident == g.2.2) =
        (fm.find? fun f => f.2.2 == g.2.2).map (fun f => ⟨f.2.2, f.2.1, b⟩)) ∧
    (∀ g ∈ fm, ((generate_enum_variants fm b).map Variant.ident).count g.2.2 = 1) ∧
    (∀ g ∈ fm, (g.1, g.2.2, g.1) ∈ generate_match_arms fm b) := by
  refine ⟨?_, ?_, ?_, ?_, ?_⟩
  · have h := (unique_by_from_keys_nodup (fun f => f.2.2) fm []).1
    simp only [generate_enum_variants, unique_by, List.map_map]
    exact h
  · show List.Sublist
      ((unique_by_from (fun f : String × String × String => f.2.2) [] fm).map
        fun f => (⟨f.2.2, f.2.1, b⟩ : Variant))
      (fm.map fun f => ⟨f.2.2, f.2.1, b⟩)
    exact List.Sublist.map _ (unique_by_from_sublist _ fm [])
  · intro g hg
    have hA := fa_find?_map
      (fun f : String × String × String => (⟨f.2.2, f.2.1, b⟩ : Variant))
      (fun c => c.ident == g.2.2) (unique_by_from (fun f => f.2.2) [] fm)
    have hB := unique_by_from_find?
      (fun f : String × String × String => f.2.2) g.2.2 fm [] (by simp)
    exact hA.trans
      (congrArg (Option.map fun f => (⟨f.2.2, f.2.1, b⟩ : Variant)) hB)
  · intro g hg
    have hnd : ((generate_enum_variants fm b).map Variant.ident).Nodup := by
      have h := (unique_by_from_keys_nodup (fun f => f.2.2) fm []).1
      simp only [generate_enum_variants, unique_by, List.map_map]
      exact h
    have hmem : g.2.2 ∈ (generate_enum_variants fm b).map Variant.ident := by
      have h := unique_by_from_keys_mem (fun f => f.2.2) fm [] g hg (by simp)
      simp only [generate_enum_variants, unique_by, List.map_map]
      exact h
    exact List.count_eq_one_of_mem hnd hmem
  · intro g hg
    exact List.mem_map_of_mem _ hg

/-- Witness for C4 at a field map with a tag collision. -/
theorem dedup_unique_by_resolved_tag_witness :
    ((generate_enum_variants fmDemo false).map Variant.ident).count "I64" = 1 ∧
    (generate_enum_variants fmDemo false).find? (fun c => c.ident == "I64") =
      some ⟨"I64", "i64", false⟩ :=
  ⟨(dedup_unique_by_resolved_tag fmDemo false).2.2.2.1
      ("dog_age", "i64", "I64") (by decide),
   (dedup_unique_by_resolved_tag fmDemo false).2.2.1
      ("dog_age", "i64", "I64") (by decide)⟩

/-- C5: An explicit field-level tag override replaces the canonicalized tag
for that one field only (a field without an override still canonicalizes,
and resolving one position of a field list never changes any other
position), and the overridden tag participates in deduplication exactly like
a canonical tag: any resolved tag occurring among the fields yields exactly
one union case. -/
theorem explicit_tag_override_local_and_dedup
    (f : Field) (t : String) (fs : List Field) (i j : Nat) (g : Field)
    (fm : List (String × String × String)) (b : Bool) :
    (retrieve_fieldname f.attrs = some t → variant_ident f = some t) ∧
    (retrieve_fieldname f.attrs = none → variant_ident f = shorten_type f.ty) ∧
    (j ≠ i → ((fs.set i g).map variant_ident)[j]? = (fs.map variant_ident)[j]?) ∧
    ((∃ x ∈ fm, x.2.2 = t) →
      ((generate_enum_variants fm b).map Variant.ident).count t = 1) := by
  refine ⟨?_, ?_, ?_, ?_⟩
  · intro h; simp [variant_ident, h]
  · intro h; simp [variant_ident, h, generate_variant_name]
  · intro hij
    rw [List.map_set]
    exact List.getElem?_set_ne (fun hcontra => hij hcontra.symm)
  · rintro ⟨x, hx, hxt⟩
    subst hxt
    have hnd : ((generate_enum_variants fm b).map Variant.ident).Nodup := by
      have h := (unique_by_from_keys_nodup (fun f => f.2.2) fm []).1
      simp only [generate_enum_variants, unique_by, List.map_map]
      exact h
    have hmem : x.2.2 ∈ (generate_enum_variants fm b).map Variant.ident := by
      have h := unique_by_from_keys_mem (fun f => f.2.2) fm [] x hx (by simp)
      simp only [generate_enum_variants, unique_by, List.map_map]
      exact h
    exact List.count_eq_one_of_mem hnd hmem

/-- Witness for C5: the explicitly tagged field resolves to its override, and
an explicit-or-canonical shared tag still yields a single case. -/
theorem explicit_tag_override_local_and_dedup_witness :
    variant_ident fDemo = some "AmazingAge" ∧
    ((generate_enum_variants fmDemo true).map Variant.ident).count "I64" = 1 :=
  ⟨(explicit_tag_override_local_and_dedup fDemo "AmazingAge" [] 0 0 fDemo
      fmDemo true).1 (by decide),
   (explicit_tag_override_local_and_dedup fDemo "I64" [] 0 1 fDemo
      fmDemo true).2.2.2 ⟨("cat_age", "i64", "I64"), by decide, rfl⟩⟩

/-- C6: For an accepted record and a declared field, the exclusive accessor
`field_mut` returns a view borrowing that field's own storage, and writing a
value through the view updates exactly that field: reading the record's own
field afterwards observes the written value. -/
theorem mut_view_write_observable
    (inp : DeriveInput) (out : Output) (fs : List Field) (f : Field) (t : String)
    (hdata : inp.data = Data.Struct (Fields.Named fs))
    (hgen : fieldname_accessor inp = Except.ok out)
    (hnodup : (fs.map Field.name).Nodup)
    (hf : f ∈ fs)
    (ht : variant_ident f = some t) :
    out.field_mut f.name = some (t, f.name) ∧
    ∀ (α : Type) (v : String → α) (x : α) (view : String × String),
      out.field_mut f.name = some view → write_view v view x f.name = x := by
  obtain ⟨fs', fm, hdata', hfm, _, harmsmut, _⟩ :=
    fieldname_accessor_ok_elim inp out hgen
  rw [hdata] at hdata'
  injection hdata' with hdata'
  injection hdata' with hdata'
  subst hdata'
  have hfind := field_map_find fs fm f t hfm hnodup hf ht
  have hrun := run_match_eq fm true f.name f.ty t hfind
  have h1 : out.field_mut f.name = some (t, f.name) := by
    show run_match out.match_arms_mut f.name = some (t, f.name)
    rw [harmsmut]
    exact hrun
  refine ⟨h1, ?_⟩
  intro α v x view hview
  rw [h1] at hview
  injection hview with hview
  subst hview
  simp [write_view]

/-- Witness for C6: writing 99 through the mutable `age` view is observed. -/
theorem mut_view_write_observable_witness :
    demoOut.field_mut "age" = some ("U8", "age") ∧
    write_view demoVal ("U8", "age") 99 "age" = 99 := by
  have h := mut_view_write_observable demoInp demoOut demoFields
    ⟨"age", "u8", []⟩ "U8" rfl rfl (by decide) (by decide) (by decide)
  exact ⟨h.1, h.2 Nat demoVal 99 ("U8", "age") h.1⟩

/-- C7 counterexample: an in-scope record shape (single case, named fields)
whose only field has the unit type `()` still aborts generation with no
output, so fatal failure is not confined to out-of-scope shapes. -/
theorem generation_failure_not_only_shape_cex :
    (fieldname_accessor badInp).toOption = none ∧
    badInp.data = Data.Struct (Fields.Named [⟨"x", "( )", []⟩]) :=
  ⟨rfl, rfl⟩

/-- C7 (amended): generation succeeds exactly for a single-case record with
named fields all of whose variant identifiers resolve; sum types, tuple
shapes and field-less shapes always abort with no output, but an in-scope
record can also abort when a field's type defeats canonicalization.  The
generated dispatch itself is total, so an unknown name is its only negative
outcome. -/
theorem generation_failure_characterization (inp : DeriveInput) :
    (∃ out, fieldname_accessor inp = Except.ok out) ↔
    ∃ fs, inp.data = Data.Struct (Fields.Named fs) ∧ (field_map fs).isSome = true := by
  obtain ⟨ident, attrs, data⟩ := inp
  constructor
  · rintro ⟨out, hgen⟩
    obtain ⟨fs, fm, hdata, hfm, _⟩ := fieldname_accessor_ok_elim _ out hgen
    exact ⟨fs, hdata, by rw [hfm]; rfl⟩
  · rintro ⟨fs, hdata, hsome⟩
    have hdata' : data = Data.Struct (Fields.Named fs) := hdata
    subst hdata'
    cases hfm : field_map fs with
    | none => rw [hfm] at hsome; simp at hsome
    | some fm =>
      simp only [fieldname_accessor]
      rw [hfm]
      exact ⟨_, rfl⟩

/-- Witness for the amended C7: the in-scope demo record generates. -/
theorem generation_failure_characterization_witness :
    ∃ out, fieldname_accessor demoInp = Except.ok out :=
  (generation_failure_characterization demoInp).mpr ⟨demoFields, rfl, by decide⟩

/-- C8: When the record-level `derive_all` option is present, both generated
unions receive exactly its capability set, overriding any separately given
`derive` / `derive_mut`; when it is absent, the separate options apply to
their respective unions. -/
theorem derive_all_overrides_both
    (inp : DeriveInput) (out : Output)
    (hgen : fieldname_accessor inp = Except.ok out) :
    (∀ d, retrieve_derives inp.attrs "derive_all" = some d →
      out.derive = some d ∧ out.derive_mut = some d) ∧
    (retrieve_derives inp.attrs "derive_all" = none →
      out.derive = retrieve_derives inp.attrs "derive" ∧
      out.derive_mut = retrieve_derives inp.attrs "derive_mut") := by
  obtain ⟨fs, fm, hdata, hfm, _, _, _, _, hd, hdm⟩ :=
    fieldname_accessor_ok_elim inp out hgen
  constructor
  · intro d hda
    rw [hd, hdm, hda]
    exact ⟨rfl, rfl⟩
  · intro hda
    rw [hd, hdm, hda]
    exact ⟨rfl, rfl⟩

/-- Witness for C8: with `derive_all = [Debug]` and `derive = [Clone]` both
attached, both unions get `[Debug]` and the separate option is ignored. -/
theorem derive_all_overrides_both_witness :
    retrieve_derives demoInpAll.attrs "derive" = some ["Clone"] ∧
    demoOutAll.derive = some ["Debug"] ∧ demoOutAll.derive_mut = some ["Debug"] := by
  have h := (derive_all_overrides_both demoInpAll demoOutAll rfl).1 ["Debug"]
    (by decide)
  exact ⟨by decide, h.1, h.2⟩

/-- C9: In the uppercase-led branch the copying loop runs to the first `<`
(or to the end of the text), copying every ASCII-alphanumeric character
verbatim, and the recursive call on the remainder again skips everything
before its first uppercase letter; consequently later generic arguments are
not individually title-cased or preserved. -/
theorem uppercase_branch_copies_to_angle
    (pre rest : List Char)
    (h1 : pre.any Char.isUpper = true)
    (h2 : '<' ∉ pre) :
    shorten_type_chars (pre ++ '<' :: rest) =
      (shorten_type_chars rest).map
        (fun r => (pre.dropWhile fun c => !c.isUpper).filter Char.isAlphanum ++ r) ∧
    shorten_type_chars pre =
      some ((pre.dropWhile fun c => !c.isUpper).filter Char.isAlphanum) ∧
    shorten_type "HashMap<String, u8>" = some "HashMapStringu8" ∧
    shorten_type "Result<u8, String>" = some "ResultString" :=
  ⟨shorten_chars_angle_decomp pre rest h1 h2,
   shorten_chars_no_angle pre h1 h2,
   by decide, by decide⟩

/-- Witness for C9 at the multi-argument generic example. -/
theorem uppercase_branch_copies_to_angle_witness :
    shorten_type "HashMap<String, u8>" = some "HashMapStringu8" :=
  (uppercase_branch_copies_to_angle ("HashMap".data) ("String, u8>".data)
    (by decide) (by decide)).2.2.1

/-- C10 counterexample: the claim's universal half fails — `A<>` contains an
uppercase (and alphanumeric) character, yet canonicalization panics on it,
because the recursive call after `<` reaches a segment with neither. -/
theorem canonicalization_panic_cex :
    shorten_type "A<>" = none ∧
    ("A<>".data.any fun c => c.isUpper || c.isAlphanum) = true := by
  decide

/-- C10 (amended): canonicalization panics on a signature with no uppercase
and no ASCII-alphanumeric character — e.g. the unit type `()`, in condensed
or token-stream spelling — and returns without fault for every signature
that contains an uppercase or ASCII-alphanumeric character and in which
every suffix following a `<` also contains one. -/
theorem canonicalization_panic_and_totality
    (s : List Char) (h1 : hasUA s = true) (h2 : goodAngles s = true) :
    (shorten_type_chars s).isSome = true ∧
    shorten_type "()" = none ∧ shorten_type "( )" = none :=
  ⟨shorten_chars_isSome s h1 h2, by decide, by decide⟩

/-- Witness for the amended C10 at a well-delimited signature. -/
theorem canonicalization_panic_and_totality_witness :
    (shorten_type_chars ("Option<i64>".data)).isSome = true :=
  (canonicalization_panic_and_totality ("Option<i64>".data)
    (by decide) (by decide)).1

end FieldnameAccess
